import Mathlib

/-!
Verification of the core algorithms of the e8-phi-constants repository.

Two components are embedded from the source:

* `test_gsm_chsh.py` (quantum_vacuum_discovery): the pentagonal-prism vertex
  construction, the brute-force CHSH quadruple search `brute_force_chsh`, the
  height sweep `uniqueness_scan`, and the algebraic identity checks.
  Floating-point numbers are idealized as exact reals; the trigonometric
  vertex coordinates are handled exactly through the quadratic field ℚ(√5),
  which is where every dot product of prism vertices lives.

* `golden_hunter.py` (Golden Field Theory): the candidate-form matcher
  `is_golden_integer`, embedded generically over a linear ordered field.
-/

/-- Quarter-integer elements of the quadratic field ℚ(√5): `⟨a, b⟩` denotes
`(a + b·√5) / 4`.  Every dot product of pentagonal-prism vertices lies in this
set, so this computable integer layer decides the exact-arithmetic facts
(score bounds, maxima) that the real-valued embedding of `test_gsm_chsh.py`
is then connected to. -/
structure GF where
  a : ℤ
  b : ℤ
deriving DecidableEq

namespace GF

def add (x y : GF) : GF := ⟨x.a + y.a, x.b + y.b⟩

def neg (x : GF) : GF := ⟨-x.a, -x.b⟩

def sub (x y : GF) : GF := ⟨x.a - y.a, x.b - y.b⟩

def zsmul (n : ℤ) (x : GF) : GF := ⟨n * x.a, n * x.b⟩

/-- Sign test for `a + b·√5 ≥ 0`, decidable over ℤ. -/
def nonneg (x : GF) : Prop :=
  (0 ≤ x.a ∧ 0 ≤ x.b) ∨ (0 ≤ x.a ∧ x.b < 0 ∧ 5 * x.b ^ 2 ≤ x.a ^ 2) ∨
    (x.a < 0 ∧ 0 ≤ x.b ∧ x.a ^ 2 ≤ 5 * x.b ^ 2)

instance : DecidablePred nonneg := fun x => by unfold nonneg; infer_instance

def le (x y : GF) : Prop := nonneg (sub y x)

instance : ∀ x y : GF, Decidable (le x y) := fun x y => by unfold le; infer_instance

def absg (x : GF) : GF := if nonneg x then x else neg x

noncomputable def toReal (x : GF) : ℝ := ((x.a : ℝ) + (x.b : ℝ) * Real.sqrt 5) / 4

lemma sqrt5_pos : (0 : ℝ) < Real.sqrt 5 := Real.sqrt_pos.mpr (by norm_num)

lemma sqrt5_mul_self : Real.sqrt 5 * Real.sqrt 5 = 5 :=
  Real.mul_self_sqrt (by norm_num)

lemma toReal_add (x y : GF) : (add x y).toReal = x.toReal + y.toReal := by
  simp only [toReal, add]; push_cast; ring

lemma toReal_neg (x : GF) : (neg x).toReal = -x.toReal := by
  simp only [toReal, neg]; push_cast; ring

lemma toReal_sub (x y : GF) : (sub x y).toReal = x.toReal - y.toReal := by
  simp only [toReal, sub]; push_cast; ring

lemma toReal_zsmul (n : ℤ) (x : GF) : (zsmul n x).toReal = (n : ℝ) * x.toReal := by
  simp only [toReal, zsmul]; push_cast; ring

lemma nonneg_iff (x : GF) : nonneg x ↔ 0 ≤ x.toReal := by
  have h5 := sqrt5_mul_self
  have hp := sqrt5_pos
  constructor
  · rintro (⟨ha, hb⟩ | ⟨ha, hb, hsq⟩ | ⟨ha, hb, hsq⟩)
    · have ha' : (0 : ℝ) ≤ (x.a : ℝ) := by exact_mod_cast ha
      have hb' : (0 : ℝ) ≤ (x.b : ℝ) := by exact_mod_cast hb
      have := mul_nonneg hb' (le_of_lt hp)
      simp only [toReal]; linarith
    · have ha' : (0 : ℝ) ≤ (x.a : ℝ) := by exact_mod_cast ha
      have hb' : (x.b : ℝ) < 0 := by exact_mod_cast hb
      have hsq' : 5 * (x.b : ℝ) ^ 2 ≤ (x.a : ℝ) ^ 2 := by exact_mod_cast hsq
      by_contra hcon
      push_neg at hcon
      simp only [toReal] at hcon
      have hcon' : (x.a : ℝ) + (x.b : ℝ) * Real.sqrt 5 < 0 := by linarith
      have hpos : (0 : ℝ) < (x.a : ℝ) - (x.b : ℝ) * Real.sqrt 5 := by nlinarith
      have := mul_neg_of_neg_of_pos hcon' hpos
      nlinarith
    · have ha' : (x.a : ℝ) < 0 := by exact_mod_cast ha
      have hb' : (0 : ℝ) ≤ (x.b : ℝ) := by exact_mod_cast hb
      have hsq' : (x.a : ℝ) ^ 2 ≤ 5 * (x.b : ℝ) ^ 2 := by exact_mod_cast hsq
      by_contra hcon
      push_neg at hcon
      simp only [toReal] at hcon
      have hcon' : (x.a : ℝ) + (x.b : ℝ) * Real.sqrt 5 < 0 := by linarith
      have h1 : (x.b : ℝ) * Real.sqrt 5 < -(x.a : ℝ) := by linarith
      have h2 : (0 : ℝ) ≤ (x.b : ℝ) * Real.sqrt 5 := mul_nonneg hb' (le_of_lt hp)
      have h3 := mul_self_lt_mul_self h2 h1
      nlinarith
  · intro h
    simp only [toReal] at h
    have h' : (0 : ℝ) ≤ (x.a : ℝ) + (x.b : ℝ) * Real.sqrt 5 := by linarith
    rcases le_or_lt 0 x.a with ha | ha <;> rcases le_or_lt 0 x.b with hb | hb
    · exact Or.inl ⟨ha, hb⟩
    · refine Or.inr (Or.inl ⟨ha, hb, ?_⟩)
      have hb' : (x.b : ℝ) < 0 := by exact_mod_cast hb
      have h1 : -(x.b : ℝ) * Real.sqrt 5 ≤ (x.a : ℝ) := by linarith
      have h2 : (0 : ℝ) ≤ -(x.b : ℝ) * Real.sqrt 5 :=
        mul_nonneg (by linarith) (le_of_lt hp)
      have key : 5 * (x.b : ℝ) ^ 2 ≤ (x.a : ℝ) ^ 2 := by nlinarith
      exact_mod_cast key
    · refine Or.inr (Or.inr ⟨ha, hb, ?_⟩)
      have ha' : (x.a : ℝ) < 0 := by exact_mod_cast ha
      have hb' : (0 : ℝ) ≤ (x.b : ℝ) := by exact_mod_cast hb
      have h1 : -(x.a : ℝ) ≤ (x.b : ℝ) * Real.sqrt 5 := by linarith
      have key : (x.a : ℝ) ^ 2 ≤ 5 * (x.b : ℝ) ^ 2 := by nlinarith
      exact_mod_cast key
    · exfalso
      have ha' : (x.a : ℝ) < 0 := by exact_mod_cast ha
      have hb' : (x.b : ℝ) < 0 := by exact_mod_cast hb
      have := mul_neg_of_neg_of_pos hb' hp
      linarith

lemma le_iff (x y : GF) : le x y ↔ x.toReal ≤ y.toReal := by
  unfold le
  rw [nonneg_iff, toReal_sub, sub_nonneg]

lemma toReal_absg (x : GF) : (absg x).toReal = |x.toReal| := by
  unfold absg
  split
  · rename_i h
    rw [abs_of_nonneg ((nonneg_iff x).mp h)]
  · rename_i h
    rw [nonneg_iff] at h
    push_neg at h
    rw [toReal_neg, abs_of_neg h]

end GF

/-! Constants of `test_gsm_chsh.py`. -/

/-- `PHI = (1 + math.sqrt(5)) / 2`, the golden ratio. -/
noncomputable def PHI : ℝ := (1 + Real.sqrt 5) / 2

/-- `GSM_BOUND = 4 - PHI`. -/
noncomputable def GSM_BOUND : ℝ := 4 - PHI

lemma PHI_pos : 0 < PHI := by
  unfold PHI
  have := GF.sqrt5_pos
  linarith

lemma PHI_sq : PHI ^ 2 = PHI + 1 := by
  unfold PHI
  have := GF.sqrt5_mul_self
  ring_nf
  nlinarith [GF.sqrt5_mul_self]

/-- The prism height squared, `h_sq = 3 / (2 * PHI)` in
`pentagonal_prism_vertices`. -/
noncomputable def hSq : ℝ := 3 / (2 * PHI)

lemma hSq_nonneg : 0 ≤ hSq := by
  unfold hSq PHI
  positivity

lemma hSq_eq : hSq = -(3 / 4) + 3 / 4 * Real.sqrt 5 := by
  unfold hSq PHI
  have h5 := GF.sqrt5_mul_self
  have hne : 2 * ((1 + Real.sqrt 5) / 2) ≠ 0 := by nlinarith [GF.sqrt5_pos]
  field_simp
  nlinarith [GF.sqrt5_mul_self]

lemma hSq_le_two : hSq ≤ 2 := by
  rw [hSq_eq]
  nlinarith [GF.sqrt5_mul_self, GF.sqrt5_pos]

/-! The pentagonal prism vertex list (`pentagonal_prism_vertices` and the
identical per-height construction inside `uniqueness_scan`). -/

/-- `R = math.sqrt(1 + h_sq)`, the normalizing divisor. -/
noncomputable def normR (hsq : ℝ) : ℝ := Real.sqrt (1 + hsq)

/-- The vertex list built by the source loop: for each `k < 5` it appends
`(cos θ / R, sin θ / R, +h/R)` and `(cos θ / R, sin θ / R, -h/R)` with
`θ = 2 π k / 5`, `h = sqrt hsq`. -/
noncomputable def prismVerts (hsq : ℝ) : List (ℝ × ℝ × ℝ) :=
  (List.range 5).flatMap fun k =>
    [(Real.cos (2 * Real.pi * k / 5) / normR hsq,
      Real.sin (2 * Real.pi * k / 5) / normR hsq,
      Real.sqrt hsq / normR hsq),
     (Real.cos (2 * Real.pi * k / 5) / normR hsq,
      Real.sin (2 * Real.pi * k / 5) / normR hsq,
      -(Real.sqrt hsq / normR hsq))]

/-- `pentagonal_prism_vertices()` from the source: the prism at
`h_sq = 3/(2 PHI)`. -/
noncomputable def pentagonal_prism_vertices : List (ℝ × ℝ × ℝ) := prismVerts hSq

lemma prismVerts_length (hsq : ℝ) : (prismVerts hsq).length = 10 := rfl

/-- Ring sign of vertex `i`: the list interleaves upper (even index, `+h/R`)
and lower (odd index, `-h/R`) ring vertices. -/
noncomputable def sgnv (i : Fin 10) : ℝ := if i.val % 2 = 0 then 1 else -1

/-- Vertex `i` of the prism list as a function: index `i` has angular index
`i / 2` and ring sign given by the parity of `i` (cf. `prismVerts`). -/
noncomputable def vertex (hsq : ℝ) (i : Fin 10) : ℝ × ℝ × ℝ :=
  (Real.cos (2 * Real.pi * (i.val / 2 : ℕ) / 5) / normR hsq,
   Real.sin (2 * Real.pi * (i.val / 2 : ℕ) / 5) / normR hsq,
   sgnv i * (Real.sqrt hsq / normR hsq))

/-- The prism list is exactly the ten `vertex` values in order, as indexed by
the source's `verts[ia]` accesses. -/
lemma prismVerts_explicit (hsq : ℝ) :
    prismVerts hsq =
      [vertex hsq ⟨0, by norm_num⟩, vertex hsq ⟨1, by norm_num⟩, vertex hsq ⟨2, by norm_num⟩,
       vertex hsq ⟨3, by norm_num⟩, vertex hsq ⟨4, by norm_num⟩, vertex hsq ⟨5, by norm_num⟩,
       vertex hsq ⟨6, by norm_num⟩, vertex hsq ⟨7, by norm_num⟩, vertex hsq ⟨8, by norm_num⟩,
       vertex hsq ⟨9, by norm_num⟩] := by
  simp [prismVerts, vertex, sgnv, List.range_succ]

/-- `_dot(a, b)` from the source. -/
def dot3 (a b : ℝ × ℝ × ℝ) : ℝ := a.1 * b.1 + a.2.1 * b.2.1 + a.2.2 * b.2.2

/-- An index quadruple `(ia, iap, ib, ibp)`. -/
abbrev Quad : Type := Fin 10 × Fin 10 × Fin 10 × Fin 10

/-- The CHSH score of a quadruple:
`S = -dot(a,b) + dot(a,bp) + dot(ap,b) + dot(ap,bp)`. -/
noncomputable def chshS (hsq : ℝ) (q : Quad) : ℝ :=
  -(dot3 (vertex hsq q.1) (vertex hsq q.2.2.1)) + dot3 (vertex hsq q.1) (vertex hsq q.2.2.2)
    + dot3 (vertex hsq q.2.1) (vertex hsq q.2.2.1) + dot3 (vertex hsq q.2.1) (vertex hsq q.2.2.2)

/-- The enumeration order of the four nested loops of `brute_force_chsh`
(and of the inner loops of `uniqueness_scan`), with the two `continue`
guards skipping `ia == iap` and `ib == ibp` when `require_distinct`. -/
def quadList (rd : Bool) : List Quad :=
  (List.finRange 10).flatMap fun ia =>
    (List.finRange 10).flatMap fun iap =>
      if rd = true ∧ ia = iap then [] else
        (List.finRange 10).flatMap fun ib =>
          (List.finRange 10).flatMap fun ibp =>
            if rd = true ∧ ib = ibp then [] else [(ia, iap, ib, ibp)]

/-- Loop state of `brute_force_chsh`. -/
structure BFState where
  best : ℝ
  bestQuad : Option Quad
  countOpt : ℕ
  exceeds : ℕ
  total : ℕ

/-- One iteration of the `brute_force_chsh` loop body. -/
noncomputable def bfStep (hsq target : ℝ) (s : BFState) (q : Quad) : BFState :=
  let S := chshS hsq q
  let absS := |S|
  let exceeds := if target + 1 / 10 ^ 10 < absS then s.exceeds + 1 else s.exceeds
  if s.best + 1 / 10 ^ 12 < absS then
    ⟨absS, some q, 1, exceeds, s.total + 1⟩
  else if |absS - s.best| < 1 / 10 ^ 12 then
    ⟨s.best, s.bestQuad, s.countOpt + 1, exceeds, s.total + 1⟩
  else
    ⟨s.best, s.bestQuad, s.countOpt, exceeds, s.total + 1⟩

/-- `brute_force_chsh(require_distinct)`: fold the loop body over the
enumeration, starting from `best_S = 0.0`, `best_quad = None`, counters 0. -/
noncomputable def brute_force_chsh (rd : Bool) : BFState :=
  (quadList rd).foldl (bfStep hSq GSM_BOUND) ⟨0, none, 0, 0, 0⟩

/-- The heights swept by `uniqueness_scan` (`n_heights = 200`):
`h_sq = 0.01 + 4.0 * i / 199`. -/
noncomputable def scanHeight (i : ℕ) : ℝ := 1 / 100 + 4 * i / 199

lemma scanHeight_nonneg (i : ℕ) : 0 ≤ scanHeight i := by
  unfold scanHeight
  positivity

/-- The running-maximum update `if abs(S) > best: best = abs(S)` of
`uniqueness_scan`. -/
noncomputable def sStep (hsq : ℝ) (best : ℝ) (q : Quad) : ℝ :=
  if best < |chshS hsq q| then |chshS hsq q| else best

/-- The inner loop of `uniqueness_scan` at one height: running maximum of
`abs S` over the distinct-index quadruples, starting from `best = 0.0`. -/
noncomputable def sMaxAt (hsq : ℝ) : ℝ := (quadList true).foldl (sStep hsq) 0

/-- The `S_max` sequence recorded by `uniqueness_scan`. -/
noncomputable def sMaxSeq (i : ℕ) : ℝ := sMaxAt (scanHeight i)

/-! Exact values of `cos (2 π k / 5)` and the reduction of prism dot
products to the quarter-integer layer. -/

lemma cos_hlp1 : Real.cos (2 * Real.pi * (1 : ℝ) / 5) = (Real.sqrt 5 - 1) / 4 := by
  have hc : Real.cos (Real.pi / 5) = (1 + Real.sqrt 5) / 4 := Real.cos_pi_div_five
  have harg : 2 * Real.pi * (1 : ℝ) / 5 = 2 * (Real.pi / 5) := by ring
  rw [harg, Real.cos_two_mul, hc]
  linear_combination (1 / 8) * GF.sqrt5_mul_self

lemma cos_hlp2 : Real.cos (2 * Real.pi * (2 : ℝ) / 5) = -((1 + Real.sqrt 5) / 4) := by
  have harg : 2 * Real.pi * (2 : ℝ) / 5 = 2 * (2 * Real.pi * (1 : ℝ) / 5) := by ring
  rw [harg, Real.cos_two_mul, cos_hlp1]
  linear_combination (1 / 8) * GF.sqrt5_mul_self

lemma cos_hlp3 : Real.cos (2 * Real.pi * (3 : ℝ) / 5) = -((1 + Real.sqrt 5) / 4) := by
  have harg : 2 * Real.pi * (3 : ℝ) / 5 = -(2 * Real.pi * (2 : ℝ) / 5) + (1 : ℤ) * (2 * Real.pi) := by
    push_cast
    ring
  rw [harg, Real.cos_add_int_mul_two_pi, Real.cos_neg, cos_hlp2]

lemma cos_hlp4 : Real.cos (2 * Real.pi * (4 : ℝ) / 5) = (Real.sqrt 5 - 1) / 4 := by
  have harg : 2 * Real.pi * (4 : ℝ) / 5 = -(2 * Real.pi * (1 : ℝ) / 5) + (1 : ℤ) * (2 * Real.pi) := by
    push_cast
    ring
  rw [harg, Real.cos_add_int_mul_two_pi, Real.cos_neg, cos_hlp1]

/-- Exact value of `4 · cos (2 π d / 5)` in the quarter-integer layer, as a
function of `d mod 5`. -/
def cq (d : ℤ) : GF :=
  if d % 5 = 0 then ⟨4, 0⟩
  else if d % 5 = 1 ∨ d % 5 = 4 then ⟨-1, 1⟩
  else ⟨-1, -1⟩

lemma cos_two_pi_int_div_five (d : ℤ) :
    Real.cos (2 * Real.pi * (d : ℝ) / 5) = Real.cos (2 * Real.pi * ((d % 5 : ℤ) : ℝ) / 5) := by
  have hd : (d : ℤ) = d % 5 + d / 5 * 5 := by
    have := Int.ediv_add_emod d 5
    linarith
  have hreal : (d : ℝ) = ((d % 5 : ℤ) : ℝ) + ((d / 5 : ℤ) : ℝ) * 5 := by exact_mod_cast hd
  have harg : 2 * Real.pi * (d : ℝ) / 5 =
      2 * Real.pi * ((d % 5 : ℤ) : ℝ) / 5 + (d / 5 : ℤ) * (2 * Real.pi) := by
    rw [hreal]
    ring
  rw [harg, Real.cos_add_int_mul_two_pi]

lemma cq_toReal (d : ℤ) : (cq d).toReal = Real.cos (2 * Real.pi * (d : ℝ) / 5) := by
  have hcases : d % 5 = 0 ∨ d % 5 = 1 ∨ d % 5 = 2 ∨ d % 5 = 3 ∨ d % 5 = 4 := by omega
  rw [cos_two_pi_int_div_five]
  rcases hcases with h | h | h | h | h
  · have hcq : cq d = ⟨4, 0⟩ := by simp [cq, h]
    rw [hcq, h]
    simp only [GF.toReal]
    push_cast
    norm_num
  · have hcq : cq d = ⟨-1, 1⟩ := by simp [cq, h]
    rw [hcq, h]
    simp only [GF.toReal]
    push_cast
    rw [cos_hlp1]
    ring
  · have hcq : cq d = ⟨-1, -1⟩ := by simp [cq, h]
    rw [hcq, h]
    simp only [GF.toReal]
    push_cast
    rw [cos_hlp2]
    ring
  · have hcq : cq d = ⟨-1, -1⟩ := by simp [cq, h]
    rw [hcq, h]
    simp only [GF.toReal]
    push_cast
    rw [cos_hlp3]
    ring
  · have hcq : cq d = ⟨-1, 1⟩ := by simp [cq, h]
    rw [hcq, h]
    simp only [GF.toReal]
    push_cast
    rw [cos_hlp4]
    ring

/-- `cos` of the angle difference between the angular indices of vertices
`i` and `j`. -/
noncomputable def cdiff (i j : Fin 10) : ℝ :=
  Real.cos (2 * Real.pi * (((i.val / 2 : ℕ) : ℝ) - ((j.val / 2 : ℕ) : ℝ)) / 5)

lemma normR_pos (hsq : ℝ) (hh : 0 ≤ hsq) : 0 < normR hsq := by
  unfold normR
  exact Real.sqrt_pos.mpr (by linarith)

/-- A prism dot product in closed form: the `x,y` parts contract to the
cosine of the angle difference, the `z` parts to `± hsq`, and the squared
normalizer `R² = 1 + hsq` appears in the denominator. -/
lemma dot3_vertex (hsq : ℝ) (hh : 0 ≤ hsq) (i j : Fin 10) :
    dot3 (vertex hsq i) (vertex hsq j) = (cdiff i j + sgnv i * sgnv j * hsq) / (1 + hsq) := by
  have h1 : (0 : ℝ) < 1 + hsq := by linarith
  have hR2 : normR hsq * normR hsq = 1 + hsq := Real.mul_self_sqrt (by linarith)
  have hh2 : Real.sqrt hsq * Real.sqrt hsq = hsq := Real.mul_self_sqrt hh
  have hRne : normR hsq ≠ 0 := ne_of_gt (normR_pos hsq hh)
  unfold dot3 vertex cdiff
  have key :
      Real.cos (2 * Real.pi * ((i.val / 2 : ℕ) : ℝ) / 5) / normR hsq *
            (Real.cos (2 * Real.pi * ((j.val / 2 : ℕ) : ℝ) / 5) / normR hsq) +
          Real.sin (2 * Real.pi * ((i.val / 2 : ℕ) : ℝ) / 5) / normR hsq *
            (Real.sin (2 * Real.pi * ((j.val / 2 : ℕ) : ℝ) / 5) / normR hsq) +
          sgnv i * (Real.sqrt hsq / normR hsq) * (sgnv j * (Real.sqrt hsq / normR hsq)) =
        (Real.cos (2 * Real.pi * ((i.val / 2 : ℕ) : ℝ) / 5) *
              Real.cos (2 * Real.pi * ((j.val / 2 : ℕ) : ℝ) / 5) +
            Real.sin (2 * Real.pi * ((i.val / 2 : ℕ) : ℝ) / 5) *
              Real.sin (2 * Real.pi * ((j.val / 2 : ℕ) : ℝ) / 5) +
            sgnv i * sgnv j * (Real.sqrt hsq * Real.sqrt hsq)) / (normR hsq * normR hsq) := by
    field_simp
    ring_nf
    rw [Real.sq_sqrt hh]
    ring
  rw [key, hR2, hh2, ← Real.cos_sub]
  have harg : 2 * Real.pi * ((i.val / 2 : ℕ) : ℝ) / 5 - 2 * Real.pi * ((j.val / 2 : ℕ) : ℝ) / 5 =
      2 * Real.pi * (((i.val / 2 : ℕ) : ℝ) - ((j.val / 2 : ℕ) : ℝ)) / 5 := by ring
  rw [harg]

/-- The cosine part `A` of the score of a quadruple. -/
noncomputable def Aq (q : Quad) : ℝ :=
  -(cdiff q.1 q.2.2.1) + cdiff q.1 q.2.2.2 + cdiff q.2.1 q.2.2.1 + cdiff q.2.1 q.2.2.2

/-- The ring-sign part `B` of the score of a quadruple. -/
noncomputable def Bq (q : Quad) : ℝ :=
  -(sgnv q.1 * sgnv q.2.2.1) + sgnv q.1 * sgnv q.2.2.2 + sgnv q.2.1 * sgnv q.2.2.1 +
    sgnv q.2.1 * sgnv q.2.2.2

/-- Factorization of the CHSH score as a linear fractional function of the
height parameter. -/
lemma chshS_factor (hsq : ℝ) (hh : 0 ≤ hsq) (q : Quad) :
    chshS hsq q = (Aq q + Bq q * hsq) / (1 + hsq) := by
  have h1 : (1 : ℝ) + hsq ≠ 0 := by linarith
  unfold chshS Aq Bq
  rw [dot3_vertex hsq hh, dot3_vertex hsq hh, dot3_vertex hsq hh, dot3_vertex hsq hh]
  field_simp
  ring

lemma sgnv_cases (i : Fin 10) : sgnv i = 1 ∨ sgnv i = -1 := by
  unfold sgnv
  split
  · exact Or.inl rfl
  · exact Or.inr rfl

lemma abs_Bq_le (q : Quad) : |Bq q| ≤ 2 := by
  unfold Bq
  rcases sgnv_cases q.1 with h1 | h1 <;> rcases sgnv_cases q.2.1 with h2 | h2 <;>
    rcases sgnv_cases q.2.2.1 with h3 | h3 <;> rcases sgnv_cases q.2.2.2 with h4 | h4 <;>
      rw [h1, h2, h3, h4] <;> norm_num

/-! Quarter-integer computation of the score numerator `4·(A + B·h²)` at the
golden height, and the decided exact bounds. -/

/-- Angular index of vertex `i` (the source's `k`). -/
def k5 (i : Fin 10) : Fin 5 := ⟨i.val / 2, by omega⟩

lemma k5_val (i : Fin 10) : (k5 i).val = i.val / 2 := rfl

/-- Ring of vertex `i` as a Boolean: `true` for the upper ring. -/
def rB (i : Fin 10) : Bool := i.val % 2 == 0

/-- Ring sign as an integer. -/
def gfc (x : Bool) : ℤ := if x then 1 else -1

lemma sgnv_eq_gfc (i : Fin 10) : sgnv i = ((gfc (rB i) : ℤ) : ℝ) := by
  by_cases h : i.val % 2 = 0 <;> simp [sgnv, gfc, rB, h]

/-- `4·A` for angular indices `(ka, ka', kb, kb')`. -/
def gfA (ka kap kb kbp : Fin 5) : GF :=
  GF.add (GF.add (GF.add (GF.neg (cq ((ka.val : ℤ) - (kb.val : ℤ))))
    (cq ((ka.val : ℤ) - (kbp.val : ℤ)))) (cq ((kap.val : ℤ) - (kb.val : ℤ))))
    (cq ((kap.val : ℤ) - (kbp.val : ℤ)))

/-- `B` for ring Booleans `(ra, ra', rb, rb')`. -/
def gfB (ra rap rb rbp : Bool) : ℤ :=
  -(gfc ra * gfc rb) + gfc ra * gfc rbp + gfc rap * gfc rb + gfc rap * gfc rbp

/-- `4·h²` at the golden height `h² = 3/(2φ) = (-3 + 3√5)/4`. -/
def tGF : GF := ⟨-3, 3⟩

/-- `4·(A + B·h²)` with the sign of `B` abstracted to a Boolean
(`gfB` only takes the values `2` and `-2`). -/
def gfNumS (ka kap kb kbp : Fin 5) (s : Bool) : GF :=
  GF.add (gfA ka kap kb kbp) (GF.zsmul (if s then 2 else -2) tGF)

/-- `4·(4-φ)·(1+h²) = -4 + 10·√5`, the score numerator bound. -/
def maxNumGF : GF := ⟨-4, 10⟩

/-- Numerator-scale separation below the maximum: `1/4`. -/
def gapNumGF : GF := ⟨1, 0⟩

theorem gfB_pm : ∀ ra rap rb rbp : Bool, gfB ra rap rb rbp = 2 ∨ gfB ra rap rb rbp = -2 := by
  decide

set_option maxRecDepth 100000 in
set_option maxHeartbeats 4000000 in
/-- Decided over all 1250 reduced parameter combinations: every score
numerator is bounded by `maxNumGF` in absolute value, and is either equal to
it or separated from it by at least `gapNumGF`. -/
theorem gf_score_bound :
    ∀ (ka kap kb kbp : Fin 5) (s : Bool),
      GF.le (GF.absg (gfNumS ka kap kb kbp s)) maxNumGF ∧
        (GF.absg (gfNumS ka kap kb kbp s) = maxNumGF ∨
          GF.le (GF.absg (gfNumS ka kap kb kbp s)) (GF.sub maxNumGF gapNumGF)) := by
  decide

lemma cdiff_eq_cq (i j : Fin 10) :
    cdiff i j = (cq (((i.val / 2 : ℕ) : ℤ) - ((j.val / 2 : ℕ) : ℤ))).toReal := by
  rw [cq_toReal]
  unfold cdiff
  congr 1
  simp only [Int.cast_sub, Int.cast_natCast]

lemma gfA_toReal (q : Quad) :
    (gfA (k5 q.1) (k5 q.2.1) (k5 q.2.2.1) (k5 q.2.2.2)).toReal = Aq q := by
  unfold Aq
  rw [cdiff_eq_cq q.1 q.2.2.1, cdiff_eq_cq q.1 q.2.2.2, cdiff_eq_cq q.2.1 q.2.2.1,
    cdiff_eq_cq q.2.1 q.2.2.2]
  unfold gfA
  rw [GF.toReal_add, GF.toReal_add, GF.toReal_add, GF.toReal_neg]
  simp only [k5_val]

lemma gfB_toReal (q : Quad) :
    ((gfB (rB q.1) (rB q.2.1) (rB q.2.2.1) (rB q.2.2.2) : ℤ) : ℝ) = Bq q := by
  unfold gfB Bq
  rw [sgnv_eq_gfc q.1, sgnv_eq_gfc q.2.1, sgnv_eq_gfc q.2.2.1, sgnv_eq_gfc q.2.2.2]
  push_cast
  ring

lemma tGF_toReal : tGF.toReal = hSq := by
  rw [hSq_eq]
  simp only [GF.toReal, tGF]
  push_cast
  ring

lemma num_toReal (q : Quad) :
    (GF.add (gfA (k5 q.1) (k5 q.2.1) (k5 q.2.2.1) (k5 q.2.2.2))
      (GF.zsmul (gfB (rB q.1) (rB q.2.1) (rB q.2.2.1) (rB q.2.2.2)) tGF)).toReal
      = Aq q + Bq q * hSq := by
  rw [GF.toReal_add, GF.toReal_zsmul, gfA_toReal, gfB_toReal, tGF_toReal]

lemma maxNum_toReal : maxNumGF.toReal = GSM_BOUND * (1 + hSq) := by
  rw [hSq_eq]
  unfold GSM_BOUND PHI maxNumGF GF.toReal
  push_cast
  linear_combination (3 / 8) * GF.sqrt5_mul_self

lemma one_add_hSq_pos : (0 : ℝ) < 1 + hSq := by linarith [hSq_nonneg]

/-- Every quadruple's score at the golden height is bounded by `4-φ` in
absolute value, and is either exactly `4-φ` or at least `1/12` below it. -/
lemma chshS_bound_gap (q : Quad) :
    |chshS hSq q| ≤ GSM_BOUND ∧
      (|chshS hSq q| = GSM_BOUND ∨ |chshS hSq q| ≤ GSM_BOUND - 1 / 12) := by
  have hfac := chshS_factor hSq hSq_nonneg q
  have h1 := one_add_hSq_pos
  have hnum := num_toReal q
  obtain ⟨s, hs⟩ : ∃ s : Bool,
      gfNumS (k5 q.1) (k5 q.2.1) (k5 q.2.2.1) (k5 q.2.2.2) s =
        GF.add (gfA (k5 q.1) (k5 q.2.1) (k5 q.2.2.1) (k5 q.2.2.2))
          (GF.zsmul (gfB (rB q.1) (rB q.2.1) (rB q.2.2.1) (rB q.2.2.2)) tGF) := by
    rcases gfB_pm (rB q.1) (rB q.2.1) (rB q.2.2.1) (rB q.2.2.2) with hB | hB
    · exact ⟨true, by rw [gfNumS, hB, if_pos rfl]⟩
    · exact ⟨false, by rw [gfNumS, hB]; rfl⟩
  obtain ⟨hle, hgap⟩ := gf_score_bound (k5 q.1) (k5 q.2.1) (k5 q.2.2.1) (k5 q.2.2.2) s
  rw [hs] at hle hgap
  rw [GF.le_iff, GF.toReal_absg, hnum, maxNum_toReal] at hle
  have habs : |chshS hSq q| = |Aq q + Bq q * hSq| / (1 + hSq) := by
    rw [hfac, abs_div, abs_of_pos h1]
  constructor
  · rw [habs, div_le_iff₀ h1]
    linarith
  · rcases hgap with he | hl
    · left
      have hre := congrArg GF.toReal he
      rw [GF.toReal_absg, hnum, maxNum_toReal] at hre
      rw [habs, hre]
      field_simp
    · right
      rw [GF.le_iff, GF.toReal_absg, hnum, GF.toReal_sub, maxNum_toReal] at hl
      have hgpv : gapNumGF.toReal = 1 / 4 := by
        simp [GF.toReal, gapNumGF]
      rw [hgpv] at hl
      rw [habs, div_le_iff₀ h1]
      have h3 : 1 + hSq ≤ 3 := by linarith [hSq_le_two]
      have hexp : (GSM_BOUND - 1 / 12) * (1 + hSq) =
          GSM_BOUND * (1 + hSq) - (1 + hSq) / 12 := by ring
      rw [hexp]
      linarith

/-! Loop invariants of the two folds, proved by list induction. -/

lemma bfStep_total (hsq target : ℝ) (s : BFState) (q : Quad) :
    (bfStep hsq target s q).total = s.total + 1 := by
  simp only [bfStep]
  split_ifs <;> rfl

lemma bfStep_best_cases (hsq target : ℝ) (s : BFState) (q : Quad) :
    (bfStep hsq target s q).best = s.best ∨ (bfStep hsq target s q).best = |chshS hsq q| := by
  simp only [bfStep]
  split_ifs <;> simp

lemma bfStep_best_mono (hsq target : ℝ) (s : BFState) (q : Quad) :
    s.best ≤ (bfStep hsq target s q).best := by
  simp only [bfStep]
  split_ifs <;> simp <;> linarith

lemma bfStep_best_close (hsq target : ℝ) (s : BFState) (q : Quad) :
    |chshS hsq q| ≤ (bfStep hsq target s q).best + 1 / 10 ^ 12 := by
  simp only [bfStep]
  split_ifs <;> simp <;> linarith

lemma bfStep_exceeds (hsq target : ℝ) (s : BFState) (q : Quad)
    (h : ¬(target + 1 / 10 ^ 10 < |chshS hsq q|)) :
    (bfStep hsq target s q).exceeds = s.exceeds := by
  simp only [bfStep, if_neg h]
  split_ifs <;> rfl

lemma bfFold_total (hsq target : ℝ) (l : List Quad) (s : BFState) :
    (l.foldl (bfStep hsq target) s).total = s.total + l.length := by
  induction l generalizing s with
  | nil => simp
  | cons q t ih =>
      rw [List.foldl_cons, ih, bfStep_total]
      simp only [List.length_cons]
      omega

lemma bfFold_best_mono (hsq target : ℝ) (l : List Quad) (s : BFState) :
    s.best ≤ (l.foldl (bfStep hsq target) s).best := by
  induction l generalizing s with
  | nil => exact le_refl _
  | cons q t ih => exact le_trans (bfStep_best_mono hsq target s q) (ih _)

lemma bfFold_best_mem (hsq target : ℝ) (l : List Quad) (s : BFState) :
    (l.foldl (bfStep hsq target) s).best = s.best ∨
      ∃ q ∈ l, (l.foldl (bfStep hsq target) s).best = |chshS hsq q| := by
  induction l generalizing s with
  | nil => exact Or.inl rfl
  | cons q t ih =>
      rw [List.foldl_cons]
      rcases ih (bfStep hsq target s q) with h | ⟨q', hq', h⟩
      · rcases bfStep_best_cases hsq target s q with hc | hc
        · exact Or.inl (h.trans hc)
        · exact Or.inr ⟨q, List.mem_cons_self q t, h.trans hc⟩
      · exact Or.inr ⟨q', List.mem_cons_of_mem q hq', h⟩

lemma bfFold_best_ub (hsq target : ℝ) (l : List Quad) (s : BFState) (c : ℝ)
    (hc : s.best ≤ c) (hl : ∀ q ∈ l, |chshS hsq q| ≤ c) :
    (l.foldl (bfStep hsq target) s).best ≤ c := by
  induction l generalizing s with
  | nil => exact hc
  | cons q t ih =>
      rw [List.foldl_cons]
      refine ih _ ?_ fun q' hq' => hl q' (List.mem_cons_of_mem q hq')
      rcases bfStep_best_cases hsq target s q with hc' | hc'
      · rw [hc']; exact hc
      · rw [hc']; exact hl q (List.mem_cons_self q t)

lemma bfFold_best_close (hsq target : ℝ) (l : List Quad) (s : BFState) :
    ∀ q ∈ l, |chshS hsq q| ≤ (l.foldl (bfStep hsq target) s).best + 1 / 10 ^ 12 := by
  induction l generalizing s with
  | nil => intro q hq; cases hq
  | cons q t ih =>
      intro q' hq'
      rw [List.foldl_cons]
      rcases List.mem_cons.mp hq' with rfl | hmem
      · exact le_trans (bfStep_best_close hsq target s q')
          (by linarith [bfFold_best_mono hsq target t (bfStep hsq target s q')])
      · exact ih (bfStep hsq target s q) q' hmem

lemma bfFold_exceeds (hsq target : ℝ) (l : List Quad) (s : BFState)
    (h : ∀ q ∈ l, ¬(target + 1 / 10 ^ 10 < |chshS hsq q|)) :
    (l.foldl (bfStep hsq target) s).exceeds = s.exceeds := by
  induction l generalizing s with
  | nil => rfl
  | cons q t ih =>
      rw [List.foldl_cons, ih _ fun q' hq' => h q' (List.mem_cons_of_mem q hq'),
        bfStep_exceeds hsq target s q (h q (List.mem_cons_self q t))]

lemma sFold_init_le (hsq : ℝ) (l : List Quad) (b : ℝ) :
    b ≤ l.foldl (sStep hsq) b := by
  induction l generalizing b with
  | nil => exact le_refl _
  | cons q t ih =>
      refine le_trans ?_ (ih (sStep hsq b q))
      unfold sStep
      split
      next h => exact le_of_lt h
      next h => exact le_refl _

lemma sFold_mem_le (hsq : ℝ) (l : List Quad) (b : ℝ) :
    ∀ q ∈ l, |chshS hsq q| ≤ l.foldl (sStep hsq) b := by
  induction l generalizing b with
  | nil => intro q hq; cases hq
  | cons q t ih =>
      intro q' hq'
      rcases List.mem_cons.mp hq' with rfl | hmem
      · refine le_trans ?_ (sFold_init_le hsq t (sStep hsq b q'))
        unfold sStep
        split
        next h => exact le_refl _
        next h => exact not_lt.mp h
      · exact ih (sStep hsq b q) q' hmem

lemma sFold_ub (hsq : ℝ) (l : List Quad) (b c : ℝ) (hb : b ≤ c)
    (hl : ∀ q ∈ l, |chshS hsq q| ≤ c) : l.foldl (sStep hsq) b ≤ c := by
  induction l generalizing b with
  | nil => exact hb
  | cons q t ih =>
      refine ih _ ?_ fun q' hq' => hl q' (List.mem_cons_of_mem q hq')
      unfold sStep
      split
      · exact hl q (List.mem_cons_self q t)
      · exact hb

/-! Concrete facts about the search at the golden height. -/

lemma sqrt5_gt_two : (2 : ℝ) < Real.sqrt 5 := by
  nlinarith [GF.sqrt5_mul_self, GF.sqrt5_pos]

lemma sqrt5_lt_three : Real.sqrt 5 < 3 := by
  nlinarith [GF.sqrt5_mul_self, GF.sqrt5_pos]

lemma GSM_ge_two : 2 ≤ GSM_BOUND := by
  unfold GSM_BOUND PHI
  nlinarith [sqrt5_lt_three]

/-- The optimal quadruple found by the brute force: `(ia, ia', ib, ib') =
(0, 2, 8, 7)`, i.e. upper vertices `k = 0, 1, 4` and the lower vertex
`k = 3`. -/
def q0 : Quad := (⟨0, by norm_num⟩, ⟨2, by norm_num⟩, ⟨8, by norm_num⟩, ⟨7, by norm_num⟩)

lemma q0_mem (rd : Bool) : q0 ∈ quadList rd := by
  cases rd
  · decide
  · decide

lemma chshS_q0 : |chshS hSq q0| = GSM_BOUND := by
  have h1 := one_add_hSq_pos
  have hnum := num_toReal q0
  have hval : GF.add (gfA (k5 q0.1) (k5 q0.2.1) (k5 q0.2.2.1) (k5 q0.2.2.2))
      (GF.zsmul (gfB (rB q0.1) (rB q0.2.1) (rB q0.2.2.1) (rB q0.2.2.2)) tGF) = ⟨4, -10⟩ := by
    decide
  have hv : Aq q0 + Bq q0 * hSq = GF.toReal ⟨4, -10⟩ := by rw [← hnum, hval]
  have hneg : GF.toReal ⟨4, -10⟩ < 0 := by
    simp only [GF.toReal]
    push_cast
    nlinarith [sqrt5_gt_two]
  have habs : |chshS hSq q0| = |Aq q0 + Bq q0 * hSq| / (1 + hSq) := by
    rw [chshS_factor hSq hSq_nonneg q0, abs_div, abs_of_pos h1]
  rw [habs, hv, abs_of_neg hneg]
  have hmax : -GF.toReal ⟨4, -10⟩ = maxNumGF.toReal := by
    simp only [GF.toReal, maxNumGF]
    push_cast
    ring
  rw [hmax, maxNum_toReal]
  field_simp

/-- The quadruple `(0, 1, 1, 0)` whose score is exactly `2` at every
height. -/
def q2 : Quad := (⟨0, by norm_num⟩, ⟨1, by norm_num⟩, ⟨1, by norm_num⟩, ⟨0, by norm_num⟩)

lemma q2_mem : q2 ∈ quadList true := by decide

lemma chshS_q2 (hsq : ℝ) (hh : 0 ≤ hsq) : chshS hsq q2 = 2 := by
  have hA : Aq q2 = 2 := by
    simp [Aq, cdiff, q2]
    norm_num
  have hB : Bq q2 = 2 := by
    simp [Bq, sgnv, q2]
    norm_num
  rw [chshS_factor hsq hh q2, hA, hB]
  have hne : (1 : ℝ) + hsq ≠ 0 := by linarith
  field_simp
  ring

lemma length_flatMap_const {α β : Type} (l : List α) (f : α → List β) (n : ℕ)
    (h : ∀ a ∈ l, (f a).length = n) : (l.flatMap f).length = l.length * n := by
  induction l with
  | nil => simp
  | cons a t ih =>
      rw [List.flatMap_cons, List.length_append, h a (List.mem_cons_self a t),
        ih fun x hx => h x (List.mem_cons_of_mem a hx), List.length_cons]
      ring

lemma length_flatMap_ite {α β : Type} (l : List α) (p : α → Prop) [DecidablePred p]
    (g : α → List β) (n : ℕ) (hg : ∀ a ∈ l, (g a).length = n) :
    (l.flatMap fun a => if p a then [] else g a).length
      = (l.countP fun a => decide (¬ p a)) * n := by
  induction l with
  | nil => simp
  | cons a t ih =>
      rw [List.flatMap_cons, List.length_append,
        ih fun x hx => hg x (List.mem_cons_of_mem a hx), List.countP_cons]
      by_cases h : p a
      · simp [h]
      · simp [h, hg a (List.mem_cons_self a t)]
        ring

lemma countP_ne_nine (x : Fin 10) :
    ((List.finRange 10).countP fun y => decide (¬ (True ∧ x = y))) = 9 := by
  fin_cases x <;> decide

lemma quadList_length_true : (quadList true).length = 8100 := by
  unfold quadList
  rw [length_flatMap_const (List.finRange 10) _ 810 ?_]
  · simp [List.length_finRange]
  intro ia _
  have hguard : ∀ x y : Fin 10, (true = true ∧ x = y) = (True ∧ x = y) := by
    intro x y
    simp
  simp only [hguard]
  rw [length_flatMap_ite (List.finRange 10) (fun iap => True ∧ ia = iap) _ 90 ?_]
  · rw [countP_ne_nine ia]
  intro iap _
  rw [length_flatMap_const (List.finRange 10) _ 9 ?_]
  · simp [List.length_finRange]
  intro ib _
  rw [length_flatMap_ite (List.finRange 10) (fun y => True ∧ ib = y) _ 1 ?_]
  · rw [countP_ne_nine ib]
  intro ibp _
  rfl

lemma quadList_length_false : (quadList false).length = 10000 := by
  unfold quadList
  have hguard : ∀ x y : Fin 10, (false = true ∧ x = y) = False := by
    intro x y
    simp
  simp only [hguard, if_false]
  rw [length_flatMap_const (List.finRange 10) _ 1000 ?_]
  · simp [List.length_finRange]
  intro ia _
  rw [length_flatMap_const (List.finRange 10) _ 100 ?_]
  · simp [List.length_finRange]
  intro iap _
  rw [length_flatMap_const (List.finRange 10) _ 10 ?_]
  · simp [List.length_finRange]
  intro ib _
  rw [length_flatMap_const (List.finRange 10) _ 1 ?_]
  · simp [List.length_finRange]
  intro ibp _
  rfl

/-- At `h² = 3/(2φ)` the final running maximum of `brute_force_chsh` is
exactly `4 - φ`, in either enumeration mode. -/
lemma brute_best (rd : Bool) : (brute_force_chsh rd).best = GSM_BOUND := by
  unfold brute_force_chsh
  have hub : ((quadList rd).foldl (bfStep hSq GSM_BOUND) ⟨0, none, 0, 0, 0⟩).best ≤ GSM_BOUND :=
    bfFold_best_ub hSq GSM_BOUND (quadList rd) ⟨0, none, 0, 0, 0⟩ GSM_BOUND
      (by show (0 : ℝ) ≤ GSM_BOUND; linarith [GSM_ge_two]) fun q _ => (chshS_bound_gap q).1
  have hclose := bfFold_best_close hSq GSM_BOUND (quadList rd) ⟨0, none, 0, 0, 0⟩ q0 (q0_mem rd)
  rw [chshS_q0] at hclose
  rcases bfFold_best_mem hSq GSM_BOUND (quadList rd) ⟨0, none, 0, 0, 0⟩ with h0 | ⟨q, _, hbest⟩
  · exfalso
    rw [h0] at hclose
    have hz : (⟨0, none, 0, 0, 0⟩ : BFState).best = 0 := rfl
    rw [hz] at hclose
    linarith [GSM_ge_two]
  · rcases (chshS_bound_gap q).2 with he | hl
    · rw [hbest, he]
    · exfalso
      rw [hbest] at hclose
      linarith

lemma brute_exceeds (rd : Bool) : (brute_force_chsh rd).exceeds = 0 := by
  unfold brute_force_chsh
  rw [bfFold_exceeds hSq GSM_BOUND (quadList rd) ⟨0, none, 0, 0, 0⟩ fun q _ => by
    push_neg
    linarith [(chshS_bound_gap q).1]]

lemma brute_total (rd : Bool) :
    (brute_force_chsh rd).total = (quadList rd).length := by
  unfold brute_force_chsh
  rw [bfFold_total]
  show 0 + _ = _
  omega

/-! Monotonicity of the height sweep: every score is a linear fractional
function `(A + B h²)/(1 + h²)` with `|B| ≤ 2`, and the constant quadruple
`q2` pins the maximum at `≥ 2`, so the per-height maximum can only decrease
as the height grows. -/

lemma absLinFrac_mono (A B t u : ℝ) (ht : 0 ≤ t) (htu : t ≤ u) :
    |(A + B * u) / (1 + u)| ≤ max (|(A + B * t) / (1 + t)|) |B| := by
  have h1 : (0 : ℝ) < 1 + t := by linarith
  have h2 : (0 : ℝ) < 1 + u := by linarith
  have hexp : (A + B * u) / (1 + u) =
      ((1 + t) / (1 + u)) * ((A + B * t) / (1 + t)) + ((u - t) / (1 + u)) * B := by
    field_simp
    ring
  set M := max (|(A + B * t) / (1 + t)|) |B| with hM
  have hl1 : (0 : ℝ) ≤ (1 + t) / (1 + u) := by positivity
  have hl2 : (0 : ℝ) ≤ (u - t) / (1 + u) := by
    apply div_nonneg (by linarith) (le_of_lt h2)
  have hsum : (1 + t) / (1 + u) + (u - t) / (1 + u) = 1 := by
    field_simp
  calc |(A + B * u) / (1 + u)|
      = |((1 + t) / (1 + u)) * ((A + B * t) / (1 + t)) + ((u - t) / (1 + u)) * B| := by
        rw [hexp]
    _ ≤ |((1 + t) / (1 + u)) * ((A + B * t) / (1 + t))| + |((u - t) / (1 + u)) * B| :=
        abs_add _ _
    _ = ((1 + t) / (1 + u)) * |(A + B * t) / (1 + t)| + ((u - t) / (1 + u)) * |B| := by
        rw [abs_mul, abs_mul, abs_of_nonneg hl1, abs_of_nonneg hl2]
    _ ≤ ((1 + t) / (1 + u)) * M + ((u - t) / (1 + u)) * M := by
        have e1 := mul_le_mul_of_nonneg_left (le_max_left (|(A + B * t) / (1 + t)|) |B|) hl1
        have e2 := mul_le_mul_of_nonneg_left (le_max_right (|(A + B * t) / (1 + t)|) |B|) hl2
        linarith
    _ = M := by
        rw [← add_mul, hsum, one_mul]

lemma two_le_sMaxAt (t : ℝ) (ht : 0 ≤ t) : 2 ≤ sMaxAt t := by
  have := sFold_mem_le t (quadList true) 0 q2 q2_mem
  rw [chshS_q2 t ht] at this
  simpa [sMaxAt] using this

lemma sMaxAt_antitone (t u : ℝ) (ht : 0 ≤ t) (htu : t ≤ u) : sMaxAt u ≤ sMaxAt t := by
  have hu : 0 ≤ u := le_trans ht htu
  have h2 := two_le_sMaxAt t ht
  unfold sMaxAt
  apply sFold_ub u (quadList true) 0 (sMaxAt t) (by linarith)
  intro q hq
  rw [chshS_factor u hu q]
  have hmono := absLinFrac_mono (Aq q) (Bq q) t u ht htu
  have hqt : |(Aq q + Bq q * t) / (1 + t)| ≤ sMaxAt t := by
    rw [← chshS_factor t ht q]
    exact sFold_mem_le t (quadList true) 0 q hq
  have hB := abs_Bq_le q
  exact le_trans hmono (max_le hqt (by linarith))

lemma scanHeight_mono (i : ℕ) : scanHeight i ≤ scanHeight (i + 1) := by
  unfold scanHeight
  push_cast
  linarith

/-! Vertex invariants. -/

lemma ppv_len : pentagonal_prism_vertices.length = 10 := prismVerts_length hSq

lemma prism_normSq (hsq : ℝ) (hh : 0 ≤ hsq) :
    ∀ v ∈ prismVerts hsq, v.1 ^ 2 + v.2.1 ^ 2 + v.2.2 ^ 2 = 1 := by
  intro v hv
  unfold prismVerts at hv
  rw [List.mem_flatMap] at hv
  obtain ⟨k, _, hv⟩ := hv
  have hRne : normR hsq ≠ 0 := ne_of_gt (normR_pos hsq hh)
  have hR2 : normR hsq ^ 2 = 1 + hsq := by
    unfold normR
    exact Real.sq_sqrt (by linarith)
  have hh2 : Real.sqrt hsq ^ 2 = hsq := Real.sq_sqrt hh
  have hcs := Real.cos_sq_add_sin_sq (2 * Real.pi * k / 5)
  simp only [List.mem_cons, List.not_mem_nil, or_false] at hv
  have hne : (1 : ℝ) + hsq ≠ 0 := by linarith
  rcases hv with rfl | rfl
  · simp only
    have e : (Real.cos (2 * Real.pi * k / 5) / normR hsq) ^ 2 +
          (Real.sin (2 * Real.pi * k / 5) / normR hsq) ^ 2 +
          (Real.sqrt hsq / normR hsq) ^ 2 =
        (Real.cos (2 * Real.pi * k / 5) ^ 2 + Real.sin (2 * Real.pi * k / 5) ^ 2 +
          Real.sqrt hsq ^ 2) / normR hsq ^ 2 := by
      ring
    rw [e, hh2, hR2, hcs]
    exact div_self hne
  · simp only
    have e : (Real.cos (2 * Real.pi * k / 5) / normR hsq) ^ 2 +
          (Real.sin (2 * Real.pi * k / 5) / normR hsq) ^ 2 +
          (-(Real.sqrt hsq / normR hsq)) ^ 2 =
        (Real.cos (2 * Real.pi * k / 5) ^ 2 + Real.sin (2 * Real.pi * k / 5) ^ 2 +
          Real.sqrt hsq ^ 2) / normR hsq ^ 2 := by
      ring
    rw [e, hh2, hR2, hcs]
    exact div_self hne

lemma abs_dot3_le_one (hsq : ℝ) (hh : 0 ≤ hsq) (i j : Fin 10) :
    |dot3 (vertex hsq i) (vertex hsq j)| ≤ 1 := by
  rw [dot3_vertex hsq hh i j, abs_div, abs_of_pos (by linarith : (0 : ℝ) < 1 + hsq),
    div_le_one (by linarith : (0 : ℝ) < 1 + hsq)]
  have hc : |cdiff i j| ≤ 1 := by
    unfold cdiff
    exact Real.abs_cos_le_one _
  have hs : |sgnv i * sgnv j * hsq| = hsq := by
    rcases sgnv_cases i with h1 | h1 <;> rcases sgnv_cases j with h2 | h2 <;>
      rw [h1, h2] <;> simp [abs_of_nonneg hh]
  calc |cdiff i j + sgnv i * sgnv j * hsq|
      ≤ |cdiff i j| + |sgnv i * sgnv j * hsq| := abs_add _ _
    _ ≤ 1 + hsq := by rw [hs]; linarith

/-- `verify_bell_squared()` from the source: the pair
`((4-PHI)**2, 17 - 7*PHI)`. -/
noncomputable def verify_bell_squared : ℝ × ℝ := ((4 - PHI) ^ 2, 17 - 7 * PHI)

/-! The claim theorems for `test_gsm_chsh.py`. -/

/-- Claim C1: at the golden height, `brute_force_chsh` enumerates 8,100
distinct-index quadruples (10,000 without the distinctness guards), its
final `max_S` is within `1e-10` of `4 - φ`, and `exceeds_bound = 0`. -/
theorem claim_C1 :
    (brute_force_chsh true).total = 8100 ∧ (brute_force_chsh false).total = 10000 ∧
      |(brute_force_chsh true).best - (4 - PHI)| < 1 / 10 ^ 10 ∧
      (brute_force_chsh true).exceeds = 0 := by
  refine ⟨?_, ?_, ?_, brute_exceeds true⟩
  · rw [brute_total, quadList_length_true]
  · rw [brute_total, quadList_length_false]
  · rw [brute_best]
    unfold GSM_BOUND
    norm_num

/-- Claim C2: the `S_max` sequence of the 200-height `uniqueness_scan` sweep
is non-increasing, in particular within the `1e-6` slack allowed by the
scan's monotonicity check. -/
theorem claim_C2 : ∀ i : ℕ, i + 1 < 200 → sMaxSeq (i + 1) ≤ sMaxSeq i + 1 / 10 ^ 6 := by
  intro i _
  have hmono := sMaxAt_antitone (scanHeight i) (scanHeight (i + 1)) (scanHeight_nonneg i)
    (scanHeight_mono i)
  unfold sMaxSeq
  linarith

/-- Witness for claim C2 at `i = 0`. -/
theorem claim_C2_witness : sMaxSeq 1 ≤ sMaxSeq 0 + 1 / 10 ^ 6 := claim_C2 0 (by norm_num)

/-- Claim C7: the identity `(4-φ)² = 17 - 7φ` holds to within `1e-14` for
the computed `PHI` (indeed exactly). -/
theorem claim_C7 :
    |verify_bell_squared.1 - verify_bell_squared.2| ≤ 1 / 10 ^ 14 ∧
      verify_bell_squared.1 = verify_bell_squared.2 := by
  have heq : verify_bell_squared.1 = verify_bell_squared.2 := by
    unfold verify_bell_squared
    simp only
    linear_combination PHI_sq
  exact ⟨by rw [heq]; simp, heq⟩

/-- Claim C8: the normalizing divisor `R = sqrt(1 + h²)` is nonzero for
every nonnegative height parameter, and every height used by
`pentagonal_prism_vertices` and by the `uniqueness_scan` sweep is
nonnegative, so the division in the vertex construction is safe. -/
theorem claim_C8 :
    (∀ t : ℝ, 0 ≤ t → normR t ≠ 0) ∧ 0 ≤ hSq ∧ ∀ i : ℕ, 0 ≤ scanHeight i :=
  ⟨fun t ht => ne_of_gt (normR_pos t ht), hSq_nonneg, scanHeight_nonneg⟩

/-- Witness for claim C8 at `t = 0`. -/
theorem claim_C8_witness : normR 0 ≠ 0 := claim_C8.1 0 (le_refl 0)

/-- Claim C9: allowing degenerate quadruples does not change the maximum:
both enumeration modes end with the same `max_S`; every degenerate quadruple
(`a = a'` or `b = b'`) has `|S| ≤ 2`, strictly below the attained maximum. -/
theorem claim_C9 :
    (brute_force_chsh false).best = (brute_force_chsh true).best ∧
      (∀ i j k : Fin 10, |chshS hSq (i, i, j, k)| ≤ 2) ∧
      (∀ i j k : Fin 10, |chshS hSq (i, j, k, k)| ≤ 2) ∧
      2 < (brute_force_chsh true).best := by
  refine ⟨by rw [brute_best, brute_best], ?_, ?_, ?_⟩
  · intro i j k
    have hS : chshS hSq (i, i, j, k) = 2 * dot3 (vertex hSq i) (vertex hSq k) := by
      unfold chshS
      ring
    rw [hS, abs_mul]
    have := abs_dot3_le_one hSq hSq_nonneg i k
    rw [abs_two]
    linarith
  · intro i j k
    have hS : chshS hSq (i, j, k, k) = 2 * dot3 (vertex hSq j) (vertex hSq k) := by
      unfold chshS
      ring
    rw [hS, abs_mul]
    have := abs_dot3_le_one hSq hSq_nonneg j k
    rw [abs_two]
    linarith
  · rw [brute_best]
    unfold GSM_BOUND PHI
    nlinarith [sqrt5_lt_three]

/-- Claim C10: the running maximum only updates on an improvement beyond
`1e-12`, so the final `max_S` is within `1e-12` of the true maximum of
`|S|` over the enumerated quadruples, every enumerated score is at most
`max_S + 1e-12`, and `max_S` is itself an attained score or `0.0`. -/
theorem claim_C10 :
    (∀ q ∈ quadList true, |chshS hSq q| ≤ (brute_force_chsh true).best + 1 / 10 ^ 12) ∧
      |(brute_force_chsh true).best - sMaxAt hSq| ≤ 1 / 10 ^ 12 ∧
      ((∃ q ∈ quadList true, (brute_force_chsh true).best = |chshS hSq q|) ∨
        (brute_force_chsh true).best = 0) := by
  have hclose : ∀ q ∈ quadList true,
      |chshS hSq q| ≤ (brute_force_chsh true).best + 1 / 10 ^ 12 := by
    intro q hq
    unfold brute_force_chsh
    exact bfFold_best_close hSq GSM_BOUND (quadList true) ⟨0, none, 0, 0, 0⟩ q hq
  have hmem := bfFold_best_mem hSq GSM_BOUND (quadList true) ⟨0, none, 0, 0, 0⟩
  have hz : (⟨0, none, 0, 0, 0⟩ : BFState).best = 0 := rfl
  refine ⟨hclose, ?_, ?_⟩
  · have hle : (brute_force_chsh true).best ≤ sMaxAt hSq := by
      unfold brute_force_chsh
      rcases hmem with h0 | ⟨q, hq, hbest⟩
      · rw [h0, hz]
        exact sFold_init_le hSq (quadList true) 0
      · rw [hbest]
        exact sFold_mem_le hSq (quadList true) 0 q hq
    have hge : sMaxAt hSq ≤ (brute_force_chsh true).best + 1 / 10 ^ 12 := by
      unfold sMaxAt
      apply sFold_ub hSq (quadList true) 0 _ ?_ hclose
      have h0le : (0 : ℝ) ≤ (brute_force_chsh true).best := by
        unfold brute_force_chsh
        have := bfFold_best_mono hSq GSM_BOUND (quadList true) ⟨0, none, 0, 0, 0⟩
        rw [hz] at this
        exact this
      linarith
    rw [abs_le]
    constructor <;> linarith
  · unfold brute_force_chsh
    rcases hmem with h0 | ⟨q, hq, hbest⟩
    · exact Or.inr (by rw [h0, hz])
    · exact Or.inl ⟨q, hq, hbest⟩

/-- Witness for claim C10 at the quadruple `(0, 2, 8, 7)`. -/
theorem claim_C10_witness :
    |chshS hSq q0| ≤ (brute_force_chsh true).best + 1 / 10 ^ 12 :=
  claim_C10.1 q0 (q0_mem true)

lemma ppv_get (n : ℕ) (h : n < pentagonal_prism_vertices.length) (h10 : n < 10) :
    pentagonal_prism_vertices.get ⟨n, h⟩ = vertex hSq ⟨n, h10⟩ := by
  have hl := prismVerts_explicit hSq
  unfold pentagonal_prism_vertices at *
  rw [List.get_of_eq hl]
  interval_cases n <;> rfl

/-- Claim C6: every vertex of `pentagonal_prism_vertices` has Euclidean norm
1 within `1e-12`, and at each angular index the upper-ring vertex and the
lower-ring vertex agree in `x`, `y` and have opposite `z`. -/
theorem claim_C6 :
    (∀ v ∈ pentagonal_prism_vertices,
        |Real.sqrt (v.1 ^ 2 + v.2.1 ^ 2 + v.2.2 ^ 2) - 1| ≤ 1 / 10 ^ 12) ∧
      ∀ k : Fin 5,
        (pentagonal_prism_vertices.get ⟨2 * k.val, by rw [ppv_len]; omega⟩).1 =
            (pentagonal_prism_vertices.get ⟨2 * k.val + 1, by rw [ppv_len]; omega⟩).1 ∧
          (pentagonal_prism_vertices.get ⟨2 * k.val, by rw [ppv_len]; omega⟩).2.1 =
            (pentagonal_prism_vertices.get ⟨2 * k.val + 1, by rw [ppv_len]; omega⟩).2.1 ∧
          (pentagonal_prism_vertices.get ⟨2 * k.val, by rw [ppv_len]; omega⟩).2.2 =
            -(pentagonal_prism_vertices.get ⟨2 * k.val + 1, by rw [ppv_len]; omega⟩).2.2 := by
  constructor
  · intro v hv
    have h1 := prism_normSq hSq hSq_nonneg v hv
    rw [h1, Real.sqrt_one]
    norm_num
  · intro k
    rw [ppv_get (2 * k.val) _ (by omega), ppv_get (2 * k.val + 1) _ (by omega)]
    simp only [vertex, sgnv]
    have hdiv : (2 * k.val) / 2 = (2 * k.val + 1) / 2 := by omega
    have h0 : (2 * k.val) % 2 = 0 := by omega
    have h1 : ¬ ((2 * k.val + 1) % 2 = 0) := by omega
    rw [hdiv, if_pos h0, if_neg h1]
    refine ⟨rfl, rfl, by ring⟩

/-- Witness for claim C6 at the first vertex of the list. -/
theorem claim_C6_witness :
    |Real.sqrt ((pentagonal_prism_vertices.get ⟨0, by rw [ppv_len]; omega⟩).1 ^ 2 +
        (pentagonal_prism_vertices.get ⟨0, by rw [ppv_len]; omega⟩).2.1 ^ 2 +
        (pentagonal_prism_vertices.get ⟨0, by rw [ppv_len]; omega⟩).2.2 ^ 2) - 1| ≤
      1 / 10 ^ 12 :=
  claim_C6.1 _ (pentagonal_prism_vertices.get_mem _ _)

/-! The candidate-form matcher `is_golden_integer` of `golden_hunter.py`,
embedded generically over a linear ordered field with a floor function
(instantiated at ℝ with `PHI` and `Real.pi` for the module constants
`phi` and `pi`). -/

/-- A tagged candidate closed form, mirroring the `(kind, label)` pairs the
source appends; the constructor arguments carry exactly the data the labels
are formatted from. -/
inductive Cand where
  | integer (n : ℤ)
  | fraction (n m : ℕ)
  | phiPow (k : ℤ)
  | lucas (n : ℕ)
  | lucasSq (n : ℕ)
  | piPow (k n : ℕ)
  | phiCompound (a b : ℤ)
deriving DecidableEq

/-- `mpmath.nint`: round to the nearest integer, ties to even. -/
def nintK {K : Type} [LinearOrderedField K] [FloorRing K] (x : K) : ℤ :=
  if x - (⌊x⌋ : K) < 1 / 2 then ⌊x⌋
  else if (1 : K) / 2 < x - (⌊x⌋ : K) then ⌊x⌋ + 1
  else if Even ⌊x⌋ then ⌊x⌋ else ⌊x⌋ + 1

/-- `range(lo, lo + len)` over ℤ. -/
def intRange (lo : ℤ) (len : ℕ) : List ℤ :=
  (List.range len).map fun (i : ℕ) => lo + (i : ℤ)

lemma mem_intRange {lo : ℤ} {len : ℕ} {k : ℤ} :
    k ∈ intRange lo len ↔ lo ≤ k ∧ k < lo + len := by
  unfold intRange
  simp only [List.mem_map, List.mem_range]
  constructor
  · rintro ⟨i, hi, hk⟩
    omega
  · rintro ⟨h1, h2⟩
    exact ⟨(k - lo).toNat, by omega, by omega⟩

/-- `is_golden_integer(x, tolerance)` from `golden_hunter.py`: appends, in
source order, the nearest integer, simple fractions `n/m` with
`n, m ∈ [1, 20]`, powers `φ^k` with `k ∈ [-15, 15]`, Lucas numbers
`L_n = φ^n + φ^(-n)` and their squares for `n ∈ [0, 12)`, products
`k·π^n` with `k ∈ [1, 9]`, `n ∈ [1, 6]`, and compounds `φ^a + φ^b` with
`a ∈ [-5, 11]`, `b ∈ [-15, 5]`, `a ≠ b` — each when within `tolerance`
of `x`. -/
def is_golden_integer {K : Type} [LinearOrderedField K] [FloorRing K]
    (phiv piv x tol : K) : List Cand :=
  (if |x - (nintK x : K)| < tol then [Cand.integer (nintK x)] else [])
    ++ ((List.range' 1 20).flatMap fun (n : ℕ) =>
        (List.range' 1 20).filterMap fun (m : ℕ) =>
          if |x - (n : K) / (m : K)| < tol then some (Cand.fraction n m) else none)
    ++ ((intRange (-15) 31).filterMap fun (k : ℤ) =>
        if |x - phiv ^ k| < tol then some (Cand.phiPow k) else none)
    ++ ((List.range 12).flatMap fun (n : ℕ) =>
        (if |x - (phiv ^ (n : ℤ) + phiv ^ (-(n : ℤ)))| < tol then [Cand.lucas n] else [])
          ++ (if |x - (phiv ^ (n : ℤ) + phiv ^ (-(n : ℤ))) ^ 2| < tol then [Cand.lucasSq n]
              else []))
    ++ ((List.range' 1 9).flatMap fun (k : ℕ) =>
        (List.range' 1 6).filterMap fun (n : ℕ) =>
          if |x - (k : K) * piv ^ n| < tol then some (Cand.piPow k n) else none)
    ++ ((intRange (-5) 17).flatMap fun (a : ℤ) =>
        (intRange (-15) 21).filterMap fun (b : ℤ) =>
          if a ≠ b ∧ |x - (phiv ^ a + phiv ^ b)| < tol then some (Cand.phiCompound a b)
          else none)

/-- The numeric value of a candidate. -/
def candValue {K : Type} [LinearOrderedField K] [FloorRing K] (phiv piv : K) : Cand → K
  | .integer n => (n : K)
  | .fraction n m => (n : K) / (m : K)
  | .phiPow k => phiv ^ k
  | .lucas n => phiv ^ (n : ℤ) + phiv ^ (-(n : ℤ))
  | .lucasSq n => (phiv ^ (n : ℤ) + phiv ^ (-(n : ℤ))) ^ 2
  | .piPow k n => (k : K) * piv ^ n
  | .phiCompound a b => phiv ^ a + phiv ^ b

/-- Catalog membership as the specification states it: the candidate's
parameters lie on the fixed grid (the source's `range` bounds) and its value
is within the tolerance of `x`. -/
def inCatalog {K : Type} [LinearOrderedField K] [FloorRing K]
    (phiv piv x tol : K) : Cand → Prop
  | .integer n => n = nintK x ∧ |x - (n : K)| < tol
  | .fraction n m => (1 ≤ n ∧ n < 21) ∧ (1 ≤ m ∧ m < 21) ∧ |x - (n : K) / (m : K)| < tol
  | .phiPow k => (-15 ≤ k ∧ k < 16) ∧ |x - phiv ^ k| < tol
  | .lucas n => n < 12 ∧ |x - (phiv ^ (n : ℤ) + phiv ^ (-(n : ℤ)))| < tol
  | .lucasSq n => n < 12 ∧ |x - (phiv ^ (n : ℤ) + phiv ^ (-(n : ℤ))) ^ 2| < tol
  | .piPow k n => (1 ≤ k ∧ k < 10) ∧ (1 ≤ n ∧ n < 7) ∧ |x - (k : K) * piv ^ n| < tol
  | .phiCompound a b =>
      (-5 ≤ a ∧ a < 12) ∧ (-15 ≤ b ∧ b < 6) ∧ a ≠ b ∧ |x - (phiv ^ a + phiv ^ b)| < tol

lemma mem_igi_iff {K : Type} [LinearOrderedField K] [FloorRing K]
    (phiv piv x tol : K) (c : Cand) :
    c ∈ is_golden_integer phiv piv x tol ↔ inCatalog phiv piv x tol c := by
  cases c <;>
    simp [is_golden_integer, inCatalog, mem_intRange, List.mem_range'_1,
      List.mem_ite_nil_right] <;>
    aesop

/-- The ℝ instantiation with the module constants `phi` and `pi`. -/
noncomputable def is_golden_integerR (x tol : ℝ) : List Cand :=
  is_golden_integer PHI Real.pi x tol

lemma mem_igiR_iff (x tol : ℝ) (c : Cand) :
    c ∈ is_golden_integerR x tol ↔ inCatalog PHI Real.pi x tol c :=
  mem_igi_iff PHI Real.pi x tol c

/-! Claims about the matcher. -/

lemma frac_close_iff (n m : ℕ) (hm : 1 ≤ m) :
    |(3 : ℝ) / 4 - (n : ℝ) / (m : ℝ)| < 1 / 10 ^ 9 ↔
      (10 : ℤ) ^ 9 * |3 * (m : ℤ) - 4 * (n : ℤ)| < 4 * (m : ℤ) := by
  have hm0 : (0 : ℝ) < (m : ℝ) := by
    have : (0 : ℕ) < m := hm
    exact_mod_cast this
  have heq : (3 : ℝ) / 4 - (n : ℝ) / m = ((3 * (m : ℤ) - 4 * (n : ℤ) : ℤ) : ℝ) / (4 * m) := by
    push_cast
    field_simp
  rw [heq, abs_div, abs_of_pos (by positivity : (0 : ℝ) < 4 * (m : ℝ)),
    div_lt_iff₀ (by positivity : (0 : ℝ) < 4 * (m : ℝ))]
  rw [← Int.cast_abs]
  constructor
  · intro h
    have h' : ((10 : ℝ) ^ 9) * |(3 * (m : ℤ) - 4 * (n : ℤ) : ℤ)| < 4 * (m : ℝ) := by
      nlinarith [h]
    exact_mod_cast h'
  · intro h
    have h' : ((10 : ℝ) ^ 9) * ((|3 * (m : ℤ) - 4 * (n : ℤ)| : ℤ) : ℝ) < 4 * (m : ℝ) := by
      exact_mod_cast h
    nlinarith [h']

lemma fracGrid : ∀ n : ℕ, n < 21 → ∀ m : ℕ, m < 21 →
    ((10 : ℤ) ^ 9 * |3 * (m : ℤ) - 4 * (n : ℤ)| < 4 * (m : ℤ) ↔
      (n, m) ∈ [(3, 4), (6, 8), (9, 12), (12, 16), (15, 20)]) := by
  decide

/-- Claim C3 (amended): on `x = 0.75` with tolerance `1e-9` the matcher
returns exactly the fraction candidates whose value equals `3/4` on the
grid: `3/4`, `6/8`, `9/12`, `12/16`, `15/20` — not only `3/4`. -/
theorem claim_C3 : ∀ n m : ℕ,
    Cand.fraction n m ∈ is_golden_integerR (3 / 4) (1 / 10 ^ 9) ↔
      (n, m) ∈ [(3, 4), (6, 8), (9, 12), (12, 16), (15, 20)] := by
  intro n m
  rw [mem_igiR_iff]
  show (1 ≤ n ∧ n < 21) ∧ (1 ≤ m ∧ m < 21) ∧
      |(3 : ℝ) / 4 - (n : ℝ) / (m : ℝ)| < 1 / 10 ^ 9 ↔ _
  constructor
  · rintro ⟨hn, hm, h⟩
    exact (fracGrid n hn.2 m hm.2).mp ((frac_close_iff n m hm.1).mp h)
  · intro hmem
    simp only [List.mem_cons, List.not_mem_nil, or_false, Prod.mk.injEq] at hmem
    rcases hmem with ⟨rfl, rfl⟩ | ⟨rfl, rfl⟩ | ⟨rfl, rfl⟩ | ⟨rfl, rfl⟩ | ⟨rfl, rfl⟩ <;>
      exact ⟨⟨by norm_num, by norm_num⟩, ⟨by norm_num, by norm_num⟩,
        (frac_close_iff _ _ (by norm_num)).mpr (by decide)⟩

/-- Counterexample to claim C3 as stated: the fraction candidate `6/8`,
which is not the pair `3/4`, is also returned for `x = 0.75`. -/
theorem claim_C3_counterexample :
    Cand.fraction 6 8 ∈ is_golden_integerR (3 / 4) (1 / 10 ^ 9) ∧
      Cand.fraction 6 8 ≠ Cand.fraction 3 4 := by
  constructor
  · rw [mem_igiR_iff]
    refine ⟨⟨by norm_num, by norm_num⟩, ⟨by norm_num, by norm_num⟩, ?_⟩
    norm_num
  · decide

lemma inCatalog_value {K : Type} [LinearOrderedField K] [FloorRing K]
    (phiv piv x tol : K) (c : Cand) (h : inCatalog phiv piv x tol c) :
    |x - candValue phiv piv c| < tol := by
  cases c with
  | integer n => exact h.2
  | fraction n m => exact h.2.2
  | phiPow k => exact h.2
  | lucas n => exact h.2
  | lucasSq n => exact h.2
  | piPow k n => exact h.2.2
  | phiCompound a b => exact h.2.2.2

/-- Claim C4: the matcher is sound (every returned candidate's value is
within the tolerance of `x`), complete (every catalog entry on the grid
within the tolerance is returned), and returns the empty list when nothing
on the catalog is within the tolerance. -/
theorem claim_C4 : ∀ x tol : ℝ,
    (∀ c ∈ is_golden_integerR x tol, |x - candValue PHI Real.pi c| < tol) ∧
      (∀ c : Cand, inCatalog PHI Real.pi x tol c → c ∈ is_golden_integerR x tol) ∧
      ((∀ c : Cand, ¬ inCatalog PHI Real.pi x tol c) → is_golden_integerR x tol = []) := by
  intro x tol
  refine ⟨?_, ?_, ?_⟩
  · intro c hc
    exact inCatalog_value PHI Real.pi x tol c ((mem_igiR_iff x tol c).mp hc)
  · intro c h
    exact (mem_igiR_iff x tol c).mpr h
  · intro h
    rw [List.eq_nil_iff_forall_not_mem]
    intro c hc
    exact h c ((mem_igiR_iff x tol c).mp hc)

/-- Witness for claim C4 at `x = 0`, `tol = 1`: the nearest-integer
candidate `0` is returned. -/
theorem claim_C4_witness : Cand.integer 0 ∈ is_golden_integerR 0 1 :=
  (claim_C4 0 1).2.1 (Cand.integer 0) ⟨by norm_num [nintK], by norm_num⟩

/-- Claim C5: with tolerance `1e-9`, the `φ^3` candidate is returned for
`x = PHI ** 3` exactly and for `x = PHI ** 3 + 0.5·tol`, but not for
`x = PHI ** 3 + 2·tol`. -/
theorem claim_C5 :
    Cand.phiPow 3 ∈ is_golden_integerR (PHI ^ 3) (1 / 10 ^ 9) ∧
      Cand.phiPow 3 ∉ is_golden_integerR (PHI ^ 3 + 2 * (1 / 10 ^ 9)) (1 / 10 ^ 9) ∧
      Cand.phiPow 3 ∈ is_golden_integerR (PHI ^ 3 + 1 / 2 * (1 / 10 ^ 9)) (1 / 10 ^ 9) := by
  have hz : PHI ^ (3 : ℤ) = PHI ^ (3 : ℕ) := by
    rw [show (3 : ℤ) = ((3 : ℕ) : ℤ) by norm_num, zpow_natCast]
  refine ⟨?_, ?_, ?_⟩
  · rw [mem_igiR_iff]
    refine ⟨⟨by norm_num, by norm_num⟩, ?_⟩
    rw [hz]
    norm_num
  · intro hmem
    obtain ⟨-, h⟩ := (mem_igiR_iff _ _ _).mp hmem
    rw [hz] at h
    have he : PHI ^ (3 : ℕ) + 2 * (1 / 10 ^ 9) - PHI ^ (3 : ℕ) = 2 / 10 ^ 9 := by ring
    rw [he] at h
    rw [abs_of_pos (by norm_num)] at h
    norm_num at h
  · rw [mem_igiR_iff]
    refine ⟨⟨by norm_num, by norm_num⟩, ?_⟩
    rw [hz]
    have he : PHI ^ (3 : ℕ) + 1 / 2 * (1 / 10 ^ 9) - PHI ^ (3 : ℕ) = 1 / (2 * 10 ^ 9) := by
      ring
    rw [he, abs_of_pos (by norm_num)]
    norm_num
